import Mathlib

/-!
Verification development for the Encrypted Browser Tunnel (EBT) anonymity
pipeline.  The definitions below are shallow embeddings of the Rust sources:
`src/anonymity/mixing.rs`, `src/anonymity/delay.rs`, `src/anonymity/path_epoch.rs`,
`src/relay_protocol.rs`, `src/anonymity_protocol.rs` and
`src/core/observability/mod.rs`.  Machine integers are modelled as `Nat` with
explicit `% 2 ^ w` or saturation where the source wraps or saturates; `Instant`
and `Duration` are modelled as nanosecond counts; fallible operations return
`Except`.  Randomness (`rand::RngCore`) is modelled as an infinite stream of
`u64` draws that is threaded explicitly through every state transition.
-/

namespace EBT

/-- Model of a `rand::RngCore` source: an infinite stream of draws.
`next_u64` consumes the head of the stream, reduced into `u64` range. -/
def RngState : Type := Nat → Nat

/-- `RngCore::next_u64`: take the next draw (as a `u64`) and advance the stream. -/
def nextU64 (g : RngState) : Nat × RngState :=
  (g 0 % 2 ^ 64, fun n => g (n + 1))

/-- A concrete deterministic stream, used to evaluate the model on examples. -/
def zeroRng : RngState := fun _ => 0

/-- `Vec::swap i j` on a list: exchange the elements at positions `i` and `j`
(identity when either index is out of bounds, which never happens at call
sites). -/
def listSwap {α : Type} (l : List α) (i j : Nat) : List α :=
  match l[i]?, l[j]? with
  | some a, some b => (l.set i b).set j a
  | some _, none => l
  | none, _ => l

/-- One pass of `rand::seq::SliceRandom::shuffle` (modern Fisher–Yates):
for `i` in `(1..len).rev()`, swap position `i` with a uniformly drawn
position `j ≤ i`.  The counter argument is the current value of `i`. -/
def shuffleGo {α : Type} : List α → RngState → Nat → List α × RngState
  | l, g, 0 => (l, g)
  | l, g, i + 1 =>
    let s := nextU64 g
    shuffleGo (listSwap l (i + 1) (s.1 % (i + 2))) s.2 i

/-- `SliceRandom::shuffle`, modelled from the rand crate with the uniform
draw `gen_range(0..=i)` taken as `next_u64 % (i + 1)`. -/
def shuffle {α : Type} (l : List α) (g : RngState) : List α × RngState :=
  shuffleGo l g (l.length - 1)

theorem listSwap_some {α : Type} {l : List α} {i j : Nat} {a b : α}
    (hi : l[i]? = some a) (hj : l[j]? = some b) :
    listSwap l i j = (l.set i b).set j a := by
  unfold listSwap
  rw [hi, hj]

theorem listSwap_none_left {α : Type} {l : List α} {i j : Nat}
    (hi : l[i]? = none) : listSwap l i j = l := by
  unfold listSwap
  rw [hi]

theorem listSwap_none_right {α : Type} {l : List α} {i j : Nat} {a : α}
    (hi : l[i]? = some a) (hj : l[j]? = none) : listSwap l i j = l := by
  unfold listSwap
  rw [hi, hj]

theorem consSetPerm {α : Type} (b a : α) :
    ∀ (xs : List α) (m : Nat), xs[m]? = some b →
      List.Perm (b :: xs.set m a) (a :: xs)
  | [], m, h => by simp at h
  | x :: xs, 0, h => by
      simp only [List.getElem?_cons_zero, Option.some.injEq] at h
      subst h
      exact List.Perm.swap a x xs
  | x :: xs, m + 1, h => by
      simp only [List.getElem?_cons_succ] at h
      have ih := consSetPerm b a xs m h
      show List.Perm (b :: x :: xs.set m a) (a :: x :: xs)
      exact ((List.Perm.swap x b _).trans (List.Perm.cons x ih)).trans
        (List.Perm.swap a x xs)

theorem setSetPerm {α : Type} :
    ∀ (l : List α) (i j : Nat) (a b : α), l[i]? = some a → l[j]? = some b →
      List.Perm ((l.set i b).set j a) l
  | [], _, _, _, _, hi, _ => by simp at hi
  | x :: xs, 0, 0, a, b, hi, hj => by
      simp only [List.getElem?_cons_zero, Option.some.injEq] at hi hj
      subst hi; subst hj
      show List.Perm (x :: xs) (x :: xs)
      exact List.Perm.refl _
  | x :: xs, 0, m + 1, a, b, hi, hj => by
      simp only [List.getElem?_cons_zero, Option.some.injEq,
        List.getElem?_cons_succ] at hi hj
      subst hi
      show List.Perm (b :: xs.set m x) (x :: xs)
      exact consSetPerm b x xs m hj
  | x :: xs, n + 1, 0, a, b, hi, hj => by
      simp only [List.getElem?_cons_zero, Option.some.injEq,
        List.getElem?_cons_succ] at hi hj
      subst hj
      show List.Perm (a :: xs.set n x) (x :: xs)
      exact consSetPerm a x xs n hi
  | x :: xs, n + 1, m + 1, a, b, hi, hj => by
      simp only [List.getElem?_cons_succ] at hi hj
      show List.Perm (x :: (xs.set n b).set m a) (x :: xs)
      exact List.Perm.cons x (setSetPerm xs n m a b hi hj)

theorem listSwap_perm {α : Type} (l : List α) (i j : Nat) :
    List.Perm (listSwap l i j) l := by
  cases hi : l[i]? with
  | none => rw [listSwap_none_left hi]
  | some a =>
    cases hj : l[j]? with
    | none => rw [listSwap_none_right hi hj]
    | some b =>
      rw [listSwap_some hi hj]
      exact setSetPerm l i j a b hi hj

theorem shuffleGo_perm {α : Type} :
    ∀ (n : Nat) (l : List α) (g : RngState),
      List.Perm (shuffleGo l g n).1 l := by
  intro n
  induction n with
  | zero => intro l g; exact List.Perm.refl _
  | succ i ih =>
    intro l g
    exact (ih _ _).trans (listSwap_perm l (i + 1) _)

theorem shuffle_perm {α : Type} (l : List α) (g : RngState) :
    List.Perm (shuffle l g).1 l :=
  shuffleGo_perm (l.length - 1) l g

/-! ## Mixing pool (`src/anonymity/mixing.rs`)

The pool is generic in the frame type because the source never inspects frame
contents (`Frame = Vec<u8>` is moved, shuffled and popped only); theorems
instantiate the frame type as needed.  `rotations` is a ghost counter that
counts the `mem::swap` epoch rotations performed; no source operation reads it. -/

structure MixingPool (α : Type) where
  current_epoch : List α
  next_epoch : List α
  rng : RngState
  rotations : Nat

/-- `MixingPool::with_rng` (and `new`/`default`): empty pool. -/
def MixingPool.with_rng {α : Type} (g : RngState) : MixingPool α :=
  ⟨[], [], g, 0⟩

/-- `MixingPool::enqueue`: push onto `next_epoch`. -/
def MixingPool.enqueue {α : Type} (p : MixingPool α) (frame : α) : MixingPool α :=
  { p with next_epoch := p.next_epoch ++ [frame] }

/-- `MixingPool::rotate_epoch`: if `next_epoch` is empty do nothing, else swap
the two epochs and shuffle the new `current_epoch`. -/
def MixingPool.rotate_epoch {α : Type} (p : MixingPool α) : MixingPool α :=
  if p.next_epoch.isEmpty then p
  else
    let s := shuffle p.next_epoch p.rng
    { current_epoch := s.1, next_epoch := p.current_epoch, rng := s.2,
      rotations := p.rotations + 1 }

/-- `Vec::pop`: remove and return the last element. -/
def popBack {α : Type} (l : List α) : Option (α × List α) :=
  match l.reverse with
  | [] => none
  | x :: rest => some (x, rest.reverse)

/-- The `while drained.len() < max_frames` loop of `MixingPool::drain_batch`.
The first argument is `max_frames - drained.len()`, the remaining capacity;
`acc` holds the drained frames in reverse order. -/
def MixingPool.drainLoop {α : Type} :
    MixingPool α → Nat → List α → List α × MixingPool α
  | p, 0, acc => (acc.reverse, p)
  | p, remaining + 1, acc =>
    if p.current_epoch.isEmpty then
      if p.next_epoch.isEmpty then (acc.reverse, p)
      else
        let p1 := p.rotate_epoch
        match popBack p1.current_epoch with
        | none => (acc.reverse, p1)
        | some (f, rest) =>
          MixingPool.drainLoop { p1 with current_epoch := rest } remaining (f :: acc)
    else
      match popBack p.current_epoch with
      | none => (acc.reverse, p)
      | some (f, rest) =>
        MixingPool.drainLoop { p with current_epoch := rest } remaining (f :: acc)

/-- `MixingPool::drain_batch`. -/
def MixingPool.drain_batch {α : Type} (p : MixingPool α) (max_frames : Nat) :
    List α × MixingPool α :=
  if max_frames = 0 then ([], p) else MixingPool.drainLoop p max_frames []

theorem popBack_eq {α : Type} {l : List α} {f : α} {rest : List α}
    (h : popBack l = some (f, rest)) : l = rest ++ [f] := by
  unfold popBack at h
  cases hrev : l.reverse with
  | nil => rw [hrev] at h; simp at h
  | cons x xs =>
    rw [hrev] at h
    simp only [Option.some.injEq, Prod.mk.injEq] at h
    obtain ⟨h1, h2⟩ := h
    subst h1; subst h2
    have : l = (x :: xs).reverse := by
      rw [← hrev, List.reverse_reverse]
    rw [this]
    simp

/-! ### Epoch containment instrumentation (C3)

The pool is run on frames tagged with a ghost enqueue epoch: `enqueue` tags each
frame with the number of rotations performed so far.  This is faithful because
the source pool never inspects frame contents. -/

inductive MixOp (α : Type) where
  | enq (frame : α)
  | drain (max_frames : Nat)

/-- Run a sequence of pool operations, tagging each enqueued frame with the
rotation count at enqueue time, and collecting all drained frames. -/
def runMix {α : Type} :
    MixingPool (α × Nat) → List (MixOp α) → List (α × Nat) × MixingPool (α × Nat)
  | p, [] => ([], p)
  | p, MixOp.enq f :: ops => runMix (p.enqueue (f, p.rotations)) ops
  | p, MixOp.drain m :: ops =>
    let r := p.drain_batch m
    let rest := runMix r.2 ops
    (r.1 ++ rest.1, rest.2)

/-- Frames in `next_epoch` were enqueued in the current epoch; frames in
`current_epoch` were enqueued in a strictly earlier epoch. -/
def EpochInv {α : Type} (p : MixingPool (α × Nat)) : Prop :=
  (∀ x ∈ p.next_epoch, x.2 = p.rotations) ∧ ∀ x ∈ p.current_epoch, x.2 < p.rotations

theorem drainLoop_stop {α : Type} {p : MixingPool α} (m : Nat) (acc : List α)
    (hc : p.current_epoch.isEmpty = true) (hn : p.next_epoch.isEmpty = true) :
    MixingPool.drainLoop p (m + 1) acc = (acc.reverse, p) := by
  simp [MixingPool.drainLoop, hc, hn]

theorem drainLoop_rotate {α : Type} {p : MixingPool α} (m : Nat) (acc : List α)
    {f : α} {rest : List α}
    (hc : p.current_epoch.isEmpty = true) (hn : p.next_epoch.isEmpty = false)
    (hp : popBack (p.rotate_epoch).current_epoch = some (f, rest)) :
    MixingPool.drainLoop p (m + 1) acc =
      MixingPool.drainLoop { p.rotate_epoch with current_epoch := rest } m (f :: acc) := by
  simp [MixingPool.drainLoop, hc, hn, hp]

theorem drainLoop_rotate_none {α : Type} {p : MixingPool α} (m : Nat) (acc : List α)
    (hc : p.current_epoch.isEmpty = true) (hn : p.next_epoch.isEmpty = false)
    (hp : popBack (p.rotate_epoch).current_epoch = none) :
    MixingPool.drainLoop p (m + 1) acc = (acc.reverse, p.rotate_epoch) := by
  simp [MixingPool.drainLoop, hc, hn, hp]

theorem drainLoop_pop {α : Type} {p : MixingPool α} (m : Nat) (acc : List α)
    {f : α} {rest : List α}
    (hc : p.current_epoch.isEmpty = false)
    (hp : popBack p.current_epoch = some (f, rest)) :
    MixingPool.drainLoop p (m + 1) acc =
      MixingPool.drainLoop { p with current_epoch := rest } m (f :: acc) := by
  simp [MixingPool.drainLoop, hc, hp]

theorem rotate_epoch_eq {α : Type} {p : MixingPool α}
    (hn : p.next_epoch.isEmpty = false) :
    p.rotate_epoch =
      { current_epoch := (shuffle p.next_epoch p.rng).1, next_epoch := p.current_epoch,
        rng := (shuffle p.next_epoch p.rng).2, rotations := p.rotations + 1 } := by
  unfold MixingPool.rotate_epoch
  rw [if_neg (by simp [hn])]

theorem popBack_of_ne_nil {α : Type} {l : List α} (h : l ≠ []) :
    ∃ f rest, popBack l = some (f, rest) := by
  unfold popBack
  cases hrev : l.reverse with
  | nil =>
    exact absurd (by simpa using congrArg List.reverse hrev) h
  | cons x xs => exact ⟨x, xs.reverse, rfl⟩

theorem drainLoop_epoch {α : Type} :
    ∀ (n : Nat) (p : MixingPool (α × Nat)) (acc : List (α × Nat)),
      EpochInv p → (∀ x ∈ acc, x.2 < p.rotations) →
      EpochInv (MixingPool.drainLoop p n acc).2 ∧
      p.rotations ≤ (MixingPool.drainLoop p n acc).2.rotations ∧
      ∀ x ∈ (MixingPool.drainLoop p n acc).1,
        x.2 < (MixingPool.drainLoop p n acc).2.rotations := by
  intro n
  induction n with
  | zero =>
    intro p acc hinv hacc
    refine ⟨hinv, Nat.le_refl _, ?_⟩
    intro x hx
    simp only [MixingPool.drainLoop, List.mem_reverse] at hx ⊢
    exact hacc x hx
  | succ m ih =>
    intro p acc hinv hacc
    cases hc : p.current_epoch.isEmpty with
    | true =>
      cases hn : p.next_epoch.isEmpty with
      | true =>
        rw [drainLoop_stop m acc hc hn]
        refine ⟨hinv, Nat.le_refl _, ?_⟩
        intro x hx
        simp only [List.mem_reverse] at hx
        exact hacc x hx
      | false =>
        have hcur : p.current_epoch = [] := List.isEmpty_iff.mp hc
        have hrot := rotate_epoch_eq hn
        have hrot1 : (p.rotate_epoch).rotations = p.rotations + 1 := by rw [hrot]
        have hinv1 : EpochInv (p.rotate_epoch) := by
          rw [hrot]
          constructor
          · intro x hx
            rw [hcur] at hx
            simp at hx
          · intro x hx
            have hmem : x ∈ p.next_epoch :=
              (shuffle_perm p.next_epoch p.rng).mem_iff.mp hx
            have := hinv.1 x hmem
            show x.2 < p.rotations + 1
            omega
        cases hp : popBack (p.rotate_epoch).current_epoch with
        | none =>
          rw [drainLoop_rotate_none m acc hc hn hp]
          refine ⟨hinv1, ?_, ?_⟩
          · show p.rotations ≤ (p.rotate_epoch).rotations
            omega
          intro x hx
          simp only [List.mem_reverse] at hx
          have := hacc x hx
          show x.2 < (p.rotate_epoch).rotations
          omega
        | some fr =>
          obtain ⟨f, rest⟩ := fr
          rw [drainLoop_rotate m acc hc hn hp]
          have hsplit : (p.rotate_epoch).current_epoch = rest ++ [f] := popBack_eq hp
          have hinv2 : EpochInv { p.rotate_epoch with current_epoch := rest } := by
            constructor
            · intro x hx
              exact hinv1.1 x hx
            · intro x hx
              exact hinv1.2 x (by rw [hsplit]; exact List.mem_append_left _ hx)
          have hacc2 : ∀ x ∈ f :: acc,
              x.2 < ({ p.rotate_epoch with current_epoch := rest}).rotations := by
            intro x hx
            rcases List.mem_cons.mp hx with h | h
            · subst h
              exact hinv1.2 x (by rw [hsplit]; simp)
            · have := hacc x h
              show x.2 < (p.rotate_epoch).rotations
              omega
          obtain ⟨i1, i2, i3⟩ :=
            ih { p.rotate_epoch with current_epoch := rest } (f :: acc) hinv2 hacc2
          refine ⟨i1, ?_, i3⟩
          have : ({ p.rotate_epoch with current_epoch := rest} :
              MixingPool (α × Nat)).rotations = p.rotations + 1 := hrot1
          omega
    | false =>
      have hner : p.current_epoch ≠ [] := by
        intro h
        rw [h] at hc
        simp at hc
      obtain ⟨f, rest, hp⟩ := popBack_of_ne_nil hner
      rw [drainLoop_pop m acc hc hp]
      have hsplit : p.current_epoch = rest ++ [f] := popBack_eq hp
      have hinv2 : EpochInv { p with current_epoch := rest } := by
        constructor
        · intro x hx
          exact hinv.1 x hx
        · intro x hx
          exact hinv.2 x (by rw [hsplit]; exact List.mem_append_left _ hx)
      have hacc2 : ∀ x ∈ f :: acc, x.2 < ({ p with current_epoch := rest}).rotations := by
        intro x hx
        rcases List.mem_cons.mp hx with h | h
        · subst h
          exact hinv.2 x (by rw [hsplit]; simp)
        · exact hacc x h
      exact ih { p with current_epoch := rest } (f :: acc) hinv2 hacc2

theorem drain_batch_epoch {α : Type} (p : MixingPool (α × Nat)) (m : Nat)
    (hinv : EpochInv p) :
    EpochInv (p.drain_batch m).2 ∧
    p.rotations ≤ (p.drain_batch m).2.rotations ∧
    ∀ x ∈ (p.drain_batch m).1, x.2 < (p.drain_batch m).2.rotations := by
  unfold MixingPool.drain_batch
  by_cases hm : m = 0
  · simp only [hm, if_true]
    exact ⟨hinv, Nat.le_refl _, by intro x hx; simp at hx⟩
  · simp only [hm, if_false]
    exact drainLoop_epoch m p [] hinv (by intro x hx; simp at hx)

theorem drainLoop_rot_mono {α : Type} :
    ∀ (n : Nat) (p : MixingPool α) (acc : List α),
      p.rotations ≤ (MixingPool.drainLoop p n acc).2.rotations := by
  intro n
  induction n with
  | zero => intro p acc; exact Nat.le_refl _
  | succ m ih =>
    intro p acc
    cases hc : p.current_epoch.isEmpty with
    | true =>
      cases hn : p.next_epoch.isEmpty with
      | true => rw [drainLoop_stop m acc hc hn]
      | false =>
        have hrot1 : (p.rotate_epoch).rotations = p.rotations + 1 := by
          rw [rotate_epoch_eq hn]
        cases hp : popBack (p.rotate_epoch).current_epoch with
        | none =>
          rw [drainLoop_rotate_none m acc hc hn hp]
          show p.rotations ≤ (p.rotate_epoch).rotations
          omega
        | some fr =>
          obtain ⟨f, rest⟩ := fr
          rw [drainLoop_rotate m acc hc hn hp]
          have := ih { p.rotate_epoch with current_epoch := rest } (f :: acc)
          have h2 : ({ p.rotate_epoch with current_epoch := rest} :
              MixingPool α).rotations = p.rotations + 1 := hrot1
          omega
    | false =>
      have hner : p.current_epoch ≠ [] := by
        intro h
        rw [h] at hc
        simp at hc
      obtain ⟨f, rest, hp⟩ := popBack_of_ne_nil hner
      rw [drainLoop_pop m acc hc hp]
      exact ih { p with current_epoch := rest } (f :: acc)

theorem drain_batch_rot_mono {α : Type} (p : MixingPool α) (m : Nat) :
    p.rotations ≤ (p.drain_batch m).2.rotations := by
  unfold MixingPool.drain_batch
  by_cases hm : m = 0
  · simp [hm]
  · simp only [hm, if_false]
    exact drainLoop_rot_mono m p []

theorem runMixRotMono {α : Type} :
    ∀ (ops : List (MixOp α)) (p : MixingPool (α × Nat)),
      p.rotations ≤ (runMix p ops).2.rotations := by
  intro ops
  induction ops with
  | nil => intro p; exact Nat.le_refl _
  | cons op rest ih =>
    intro p
    cases op with
    | enq f =>
      have := ih (p.enqueue (f, p.rotations))
      simpa [runMix, MixingPool.enqueue] using this
    | drain m =>
      have h1 := drain_batch_rot_mono p m
      have h2 := ih (p.drain_batch m).2
      simp only [runMix]
      omega

theorem runMix_epoch {α : Type} :
    ∀ (ops : List (MixOp α)) (p : MixingPool (α × Nat)),
      EpochInv p →
      EpochInv (runMix p ops).2 ∧
      ∀ x ∈ (runMix p ops).1, x.2 < (runMix p ops).2.rotations := by
  intro ops
  induction ops with
  | nil =>
    intro p hinv
    exact ⟨hinv, by intro x hx; simp [runMix] at hx⟩
  | cons op rest ih =>
    intro p hinv
    cases op with
    | enq f =>
      have hinv2 : EpochInv (p.enqueue (f, p.rotations)) := by
        constructor
        · intro x hx
          simp only [MixingPool.enqueue, List.mem_append, List.mem_singleton] at hx
          rcases hx with h | h
          · exact hinv.1 x h
          · subst h; rfl
        · intro x hx
          exact hinv.2 x hx
      exact ih _ hinv2
    | drain m =>
      obtain ⟨d1, d2, d3⟩ := drain_batch_epoch p m hinv
      obtain ⟨r1, r2⟩ := ih (p.drain_batch m).2 d1
      have hmono : (p.drain_batch m).2.rotations ≤ (runMix (p.drain_batch m).2 rest).2.rotations :=
        runMixRotMono rest (p.drain_batch m).2
      refine ⟨r1, ?_⟩
      intro x hx
      simp only [runMix, List.mem_append] at hx
      rcases hx with h | h
      · have := d3 x h
        simp only [runMix]
        omega
      · exact r2 x h

theorem drainLoop_from_current {α : Type} :
    ∀ (r : Nat) (p : MixingPool α) (acc : List α), r ≤ p.current_epoch.length →
      (∀ f ∈ (MixingPool.drainLoop p r acc).1, f ∈ acc ∨ f ∈ p.current_epoch) ∧
      (MixingPool.drainLoop p r acc).2.rotations = p.rotations := by
  intro r
  induction r with
  | zero =>
    intro p acc _
    refine ⟨?_, rfl⟩
    intro f hf
    simp only [MixingPool.drainLoop, List.mem_reverse] at hf
    exact Or.inl hf
  | succ m ih =>
    intro p acc hlen
    have hner : p.current_epoch ≠ [] := by
      intro h
      rw [h] at hlen
      simp at hlen
    have hc : p.current_epoch.isEmpty = false := by
      cases hcc : p.current_epoch.isEmpty with
      | true => exact absurd (List.isEmpty_iff.mp hcc) hner
      | false => rfl
    obtain ⟨f, rest, hp⟩ := popBack_of_ne_nil hner
    rw [drainLoop_pop m acc hc hp]
    have hsplit : p.current_epoch = rest ++ [f] := popBack_eq hp
    have hlen2 : m ≤ rest.length := by
      rw [hsplit] at hlen
      simp at hlen
      omega
    obtain ⟨m1, m2⟩ := ih { p with current_epoch := rest } (f :: acc) hlen2
    constructor
    · intro x hx
      rcases m1 x hx with h | h
      · rcases List.mem_cons.mp h with h2 | h2
        · subst h2
          exact Or.inr (by rw [hsplit]; simp)
        · exact Or.inl h2
      · exact Or.inr (by rw [hsplit]; exact List.mem_append_left _ h)
    · exact m2

theorem drainLoop_next_empty_rot {α : Type} :
    ∀ (r : Nat) (p : MixingPool α) (acc : List α), p.next_epoch = [] →
      (MixingPool.drainLoop p r acc).2.rotations = p.rotations := by
  intro r
  induction r with
  | zero => intro p acc _; rfl
  | succ m ih =>
    intro p acc hn
    cases hc : p.current_epoch.isEmpty with
    | true =>
      rw [drainLoop_stop m acc hc (by rw [hn]; rfl)]
    | false =>
      have hner : p.current_epoch ≠ [] := by
        intro h
        rw [h] at hc
        simp at hc
      obtain ⟨f, rest, hp⟩ := popBack_of_ne_nil hner
      rw [drainLoop_pop m acc hc hp]
      exact ih { p with current_epoch := rest } (f :: acc) hn

theorem drainLoop_rot_le {α : Type} :
    ∀ (r : Nat) (p : MixingPool α) (acc : List α),
      (MixingPool.drainLoop p r acc).2.rotations ≤ p.rotations + 1 := by
  intro r
  induction r with
  | zero => intro p acc; exact Nat.le_succ _
  | succ m ih =>
    intro p acc
    cases hc : p.current_epoch.isEmpty with
    | true =>
      cases hn : p.next_epoch.isEmpty with
      | true =>
        rw [drainLoop_stop m acc hc hn]
        exact Nat.le_succ _
      | false =>
        have hcur : p.current_epoch = [] := List.isEmpty_iff.mp hc
        have hrot1 : (p.rotate_epoch).rotations = p.rotations + 1 := by
          rw [rotate_epoch_eq hn]
        have hnext1 : (p.rotate_epoch).next_epoch = [] := by
          rw [rotate_epoch_eq hn]
          exact hcur
        cases hp : popBack (p.rotate_epoch).current_epoch with
        | none =>
          rw [drainLoop_rotate_none m acc hc hn hp]
          show (p.rotate_epoch).rotations ≤ p.rotations + 1
          omega
        | some fr =>
          obtain ⟨f, rest⟩ := fr
          rw [drainLoop_rotate m acc hc hn hp]
          have := drainLoop_next_empty_rot m
            { p.rotate_epoch with current_epoch := rest } (f :: acc) hnext1
          rw [this]
          show (p.rotate_epoch).rotations ≤ p.rotations + 1
          omega
    | false =>
      have hner : p.current_epoch ≠ [] := by
        intro h
        rw [h] at hc
        simp at hc
      obtain ⟨f, rest, hp⟩ := popBack_of_ne_nil hner
      rw [drainLoop_pop m acc hc hp]
      exact ih { p with current_epoch := rest } (f :: acc)

/-- C3: no frame leaves the mixing pool in the epoch in which it was enqueued.
Every frame is tagged at enqueue time with the number of epoch rotations seen so
far; every frame that `drain_batch` ever returns carries a tag strictly below
the pool's rotation count at return, i.e. an epoch swap occurred after its
enqueue and before its departure. -/
theorem mixing_epoch_containment {α : Type} (ops : List (MixOp α)) (g : RngState)
    (x : α × Nat) (hx : x ∈ (runMix (MixingPool.with_rng g) ops).1) :
    x.2 < (runMix (MixingPool.with_rng g) ops).2.rotations := by
  have hinv : EpochInv (MixingPool.with_rng g : MixingPool (α × Nat)) := by
    constructor
    · intro y hy
      simp [MixingPool.with_rng] at hy
    · intro y hy
      simp [MixingPool.with_rng] at hy
  exact (runMix_epoch ops _ hinv).2 x hx

theorem mixing_epoch_containment_witness :
    ((5, 0) ∈ (runMix (MixingPool.with_rng zeroRng : MixingPool (Nat × Nat))
        [MixOp.enq 5, MixOp.drain 1]).1) ∧
    (5, 0).2 < (runMix (MixingPool.with_rng zeroRng : MixingPool (Nat × Nat))
        [MixOp.enq 5, MixOp.drain 1]).2.rotations :=
  ⟨by decide, mixing_epoch_containment [MixOp.enq 5, MixOp.drain 1] zeroRng (5, 0) (by decide)⟩

/-- C4 (amended): a single `drain_batch(max)` call performs the swap-and-shuffle
at most once, and the swap happens only at a moment when `current_epoch` is
empty — either at the start of the call or after the call has exhausted it.
When `max` does not exceed the size of `current_epoch`, the call returns only
frames already in `current_epoch` and performs no swap; when `max` exceeds it,
the call may additionally swap in and return frames from `next_epoch`. -/
theorem drain_batch_swap_once {α : Type} (p : MixingPool α) (max_frames : Nat) :
    (p.drain_batch max_frames).2.rotations ≤ p.rotations + 1 ∧
    (max_frames ≤ p.current_epoch.length →
      (∀ f ∈ (p.drain_batch max_frames).1, f ∈ p.current_epoch) ∧
      (p.drain_batch max_frames).2.rotations = p.rotations) := by
  constructor
  · unfold MixingPool.drain_batch
    by_cases hm : max_frames = 0
    · simp only [hm, if_true]
      exact Nat.le_succ _
    · simp only [hm, if_false]
      exact drainLoop_rot_le max_frames p []
  · intro hlen
    unfold MixingPool.drain_batch
    by_cases hm : max_frames = 0
    · simp only [hm, if_true]
      constructor
      · intro f hf
        simp at hf
      · trivial
    · simp only [hm, if_false]
      obtain ⟨m1, m2⟩ := drainLoop_from_current max_frames p [] hlen
      refine ⟨?_, m2⟩
      intro f hf
      rcases m1 f hf with h | h
      · simp at h
      · exact h

theorem drain_batch_swap_once_witness :
    (1 ≤ ((⟨[1, 2], [3], zeroRng, 0⟩ : MixingPool Nat)).current_epoch.length) ∧
    ((∀ f ∈ ((⟨[1, 2], [3], zeroRng, 0⟩ : MixingPool Nat).drain_batch 1).1,
        f ∈ (⟨[1, 2], [3], zeroRng, 0⟩ : MixingPool Nat).current_epoch) ∧
      ((⟨[1, 2], [3], zeroRng, 0⟩ : MixingPool Nat).drain_batch 1).2.rotations =
        (⟨[1, 2], [3], zeroRng, 0⟩ : MixingPool Nat).rotations) :=
  ⟨by decide, (drain_batch_swap_once (⟨[1, 2], [3], zeroRng, 0⟩ : MixingPool Nat) 1).2 (by decide)⟩

/-- Concrete pool used to refute the original statement of C4: `current_epoch`
holds frame 10, `next_epoch` holds frame 20. -/
def cexPool : MixingPool Nat := ⟨[10], [20], zeroRng, 0⟩

/-- Refutes C4 as stated: with `current_epoch = [10]` non-empty at call time
and `max = 2`, `drain_batch` swaps mid-call (rotation count rises) and returns
frame 20, which was in `next_epoch`, not `current_epoch`. -/
theorem drain_batch_counterexample :
    (cexPool.drain_batch 2).1 = [10, 20] ∧
    (cexPool.drain_batch 2).2.rotations = cexPool.rotations + 1 ∧
    cexPool.current_epoch = [10] ∧
    20 ∉ cexPool.current_epoch ∧ 20 ∈ cexPool.next_epoch := by
  refine ⟨by decide, by decide, by decide, by decide, by decide⟩

/-! ## Delay queue (`src/anonymity/delay.rs`)

`Duration` and `Instant` are modelled as nanosecond counts (`Duration::as_nanos`
is exact; `u64::try_from` bounds them by `u64::MAX`).  The `BinaryHeap` of
`Reverse<PendingFrame>` is modelled as the list of its entries; popping removes
a minimal entry under the source's `Ord` (`ready_at`, then `nonce`). -/

/-- `Frame = Vec<u8>`. -/
abbrev Frame := List Nat

def U64_MAX : Nat := 2 ^ 64 - 1

/-- `u64::saturating_add`. -/
def satAdd64 (a b : Nat) : Nat := min (a + b) U64_MAX

structure UniformDelay where
  min_ns : Nat
  max_ns : Nat
deriving DecidableEq

/-- `UniformDelay::new`: requires a positive minimum, `max ≥ min`, and both
representable as `u64` nanosecond counts. -/
def UniformDelay.new (minD maxD : Nat) : Except String UniformDelay :=
  if minD = 0 then .error "min delay must be > 0"
  else if maxD < minD then .error "max delay must be >= min delay"
  else if U64_MAX < minD then .error "min delay too large"
  else if U64_MAX < maxD then .error "max delay too large"
  else .ok ⟨minD, maxD⟩

/-- `UniformDelay::sample_delay`: `min_ns.saturating_add(offset)` where
`offset = next_u64 % (span + 1)` for `span = max_ns.saturating_sub(min_ns)`,
and the rng is not consumed when `span = 0`. -/
def UniformDelay.sample_delay (d : UniformDelay) (g : RngState) : Nat × RngState :=
  let span := d.max_ns - d.min_ns
  if span = 0 then (satAdd64 d.min_ns 0, g)
  else
    let s := nextU64 g
    (satAdd64 d.min_ns (s.1 % (span + 1)), s.2)

structure PendingFrame where
  ready_at : Nat
  nonce : Nat
  frame : Frame

structure DelayQueue where
  distribution : UniformDelay
  rng : RngState
  pending : List PendingFrame
  ready : List Frame

/-- `DelayQueue::with_rng`. -/
def DelayQueue.with_rng (d : UniformDelay) (g : RngState) : DelayQueue :=
  ⟨d, g, [], []⟩

/-- `DelayQueue::enqueue_at`: sample a delay (bumping a zero sample to 1 ns),
set `ready_at = now + delay`, draw a nonce, and push onto the pending heap. -/
def DelayQueue.enqueue_at (q : DelayQueue) (now : Nat) (frame : Frame) : DelayQueue :=
  let s := q.distribution.sample_delay q.rng
  let delay := if s.1 = 0 then 1 else s.1
  let ready_at := now + delay
  let s2 := nextU64 s.2
  { q with rng := s2.2, pending := ⟨ready_at, s2.1, frame⟩ :: q.pending }

/-- The heap order on `PendingFrame` (`Ord`: by `ready_at`, then `nonce`). -/
def pendingLE (a b : PendingFrame) : Bool :=
  a.ready_at < b.ready_at || (a.ready_at == b.ready_at && a.nonce ≤ b.nonce)

/-- `BinaryHeap::pop` on the entry multiset: remove a minimal entry. -/
def popMin : List PendingFrame → Option (PendingFrame × List PendingFrame)
  | [] => none
  | x :: xs =>
    match popMin xs with
    | none => some (x, [])
    | some (m, rest) => if pendingLE x m then some (x, xs) else some (m, x :: rest)

/-- The `while let Some(peek)` loop of `DelayQueue::collect_ready`: pop due
entries in heap order into `acc`; stop when the minimum is not yet due.  The
fuel starts at the pending size, which bounds the iteration count. -/
def collectGo : Nat → Nat → List PendingFrame → List Frame →
    List Frame × List PendingFrame
  | 0, _, pending, acc => (acc.reverse, pending)
  | fuel + 1, now, pending, acc =>
    match popMin pending with
    | none => (acc.reverse, pending)
    | some (m, rest) =>
      if now < m.ready_at then (acc.reverse, pending)
      else collectGo fuel now rest (m.frame :: acc)

/-- `DelayQueue::collect_ready`: move due entries from the heap, shuffle them,
and append them to the ready buffer (the rng is untouched when nothing is due). -/
def DelayQueue.collect_ready (q : DelayQueue) (now : Nat) : DelayQueue :=
  let r := collectGo q.pending.length now q.pending []
  if r.1.isEmpty then { q with pending := r.2 }
  else
    let s := shuffle r.1 q.rng
    { q with pending := r.2, rng := s.2, ready := q.ready ++ s.1 }

/-- The `while drained.len() < max_frames` pop-front loop of
`DelayQueue::drain_ready_at`. -/
def popFrontN {α : Type} : Nat → List α → List α × List α
  | 0, l => ([], l)
  | _ + 1, [] => ([], [])
  | n + 1, x :: xs =>
    let r := popFrontN n xs
    (x :: r.1, r.2)

/-- `DelayQueue::drain_ready_at`. -/
def DelayQueue.drain_ready_at (q : DelayQueue) (now : Nat) (max_frames : Nat) :
    List Frame × DelayQueue :=
  if max_frames = 0 then ([], q)
  else
    let q1 := q.collect_ready now
    let r := popFrontN max_frames q1.ready
    (r.1, { q1 with ready := r.2 })

/-- C1: with a `UniformDelay(min, max)` distribution (construction succeeds
only when `0 < min ≤ max ≤ u64::MAX`), every `enqueue_at(now, frame)` pushes a
pending entry whose release time satisfies `min ≤ ready_at - now ≤ max`. -/
theorem enqueue_delay_bounds (minD maxD : Nat) (d : UniformDelay) (g : RngState)
    (pending : List PendingFrame) (ready : List Frame) (now : Nat) (f : Frame)
    (h : UniformDelay.new minD maxD = .ok d) :
    ∃ pf : PendingFrame,
      (DelayQueue.enqueue_at ⟨d, g, pending, ready⟩ now f).pending = pf :: pending ∧
      pf.frame = f ∧ minD ≤ pf.ready_at - now ∧ pf.ready_at - now ≤ maxD := by
  unfold UniformDelay.new at h
  by_cases h1 : minD = 0
  · rw [if_pos h1] at h; exact absurd h (by simp)
  rw [if_neg h1] at h
  by_cases h2 : maxD < minD
  · rw [if_pos h2] at h; exact absurd h (by simp)
  rw [if_neg h2] at h
  by_cases h3 : U64_MAX < minD
  · rw [if_pos h3] at h; exact absurd h (by simp)
  rw [if_neg h3] at h
  by_cases h4 : U64_MAX < maxD
  · rw [if_pos h4] at h; exact absurd h (by simp)
  rw [if_neg h4] at h
  have hd : d = ⟨minD, maxD⟩ := by
    cases h
    rfl
  subst hd
  unfold DelayQueue.enqueue_at UniformDelay.sample_delay
  simp only
  by_cases hspan : maxD - minD = 0
  · rw [if_pos hspan]
    have hdelay : satAdd64 minD 0 = minD := by
      unfold satAdd64
      omega
    refine ⟨_, rfl, rfl, ?_, ?_⟩
    · simp only [hdelay]
      rw [if_neg h1]
      omega
    · simp only [hdelay]
      rw [if_neg h1]
      omega
  · rw [if_neg hspan]
    have hoff : (nextU64 g).1 % (maxD - minD + 1) ≤ maxD - minD :=
      Nat.le_of_lt_succ (Nat.mod_lt _ (by omega))
    have hdelay : satAdd64 minD ((nextU64 g).1 % (maxD - minD + 1)) =
        minD + (nextU64 g).1 % (maxD - minD + 1) := by
      unfold satAdd64
      omega
    have hne : minD + (nextU64 g).1 % (maxD - minD + 1) ≠ 0 := by omega
    refine ⟨_, rfl, rfl, ?_, ?_⟩
    · simp only [hdelay]
      rw [if_neg hne]
      omega
    · simp only [hdelay]
      rw [if_neg hne]
      omega

theorem enqueue_delay_bounds_witness :
    (UniformDelay.new 5 10 = .ok ⟨5, 10⟩) ∧
    ∃ pf : PendingFrame,
      (DelayQueue.enqueue_at ⟨⟨5, 10⟩, zeroRng, [], []⟩ 100 [7]).pending = pf :: [] ∧
      pf.frame = [7] ∧ 5 ≤ pf.ready_at - 100 ∧ pf.ready_at - 100 ≤ 10 :=
  ⟨rfl, enqueue_delay_bounds 5 10 ⟨5, 10⟩ zeroRng [] [] 100 [7] rfl⟩

/-! ### Frame conservation (C10) -/

inductive DelayOp where
  | enq (now : Nat) (frame : Frame)
  | drain (now : Nat) (max_frames : Nat)

/-- Run a sequence of delay-queue operations, collecting everything drained. -/
def runDelay : DelayQueue → List DelayOp → List Frame × DelayQueue
  | q, [] => ([], q)
  | q, DelayOp.enq now f :: ops => runDelay (q.enqueue_at now f) ops
  | q, DelayOp.drain now m :: ops =>
    let r := q.drain_ready_at now m
    let rest := runDelay r.2 ops
    (r.1 ++ rest.1, rest.2)

/-- The multiset of frames currently held by the queue (pending heap plus
ready buffer). -/
def queueFrames (q : DelayQueue) : Multiset Frame :=
  (q.pending.map PendingFrame.frame : List Frame) + (q.ready : Multiset Frame)

/-- The multiset of frames enqueued by a sequence of operations. -/
def opsFrames : List DelayOp → Multiset Frame
  | [] => 0
  | DelayOp.enq _ f :: ops => f ::ₘ opsFrames ops
  | DelayOp.drain _ _ :: ops => opsFrames ops

theorem popMin_none {l : List PendingFrame} (h : popMin l = none) : l = [] := by
  cases l with
  | nil => rfl
  | cons x xs =>
    exfalso
    cases hx : popMin xs with
    | none => simp [popMin, hx] at h
    | some pr =>
      obtain ⟨m, rest⟩ := pr
      by_cases hle : pendingLE x m
      · simp [popMin, hx, hle] at h
      · simp [popMin, hx, hle] at h

theorem popMin_perm :
    ∀ {l : List PendingFrame} {m : PendingFrame} {rest : List PendingFrame},
      popMin l = some (m, rest) → List.Perm l (m :: rest) := by
  intro l
  induction l with
  | nil => intro m rest h; simp [popMin] at h
  | cons x xs ih =>
    intro m rest h
    cases hx : popMin xs with
    | none =>
      have hnil : xs = [] := popMin_none hx
      simp only [popMin, hx, Option.some.injEq, Prod.mk.injEq] at h
      obtain ⟨h1, h2⟩ := h
      subst h1
      subst h2
      subst hnil
      exact List.Perm.refl _
    | some pr =>
      obtain ⟨m2, rest2⟩ := pr
      by_cases hle : pendingLE x m2
      · simp [popMin, hx, hle] at h
        obtain ⟨h1, h2⟩ := h
        subst h1
        subst h2
        exact List.Perm.refl _
      · simp [popMin, hx, hle] at h
        obtain ⟨h1, h2⟩ := h
        subst h1
        subst h2
        exact (List.Perm.cons x (ih hx)).trans (List.Perm.swap _ x rest2)

theorem collectGo_conserve :
    ∀ (fuel now : Nat) (pending : List PendingFrame) (acc : List Frame),
      ((collectGo fuel now pending acc).1 : Multiset Frame) +
          ((collectGo fuel now pending acc).2.map PendingFrame.frame : List Frame) =
        (acc : Multiset Frame) + (pending.map PendingFrame.frame : List Frame) := by
  intro fuel
  induction fuel with
  | zero =>
    intro now pending acc
    simp only [collectGo]
    rw [Multiset.coe_eq_coe.mpr (List.reverse_perm acc)]
  | succ n ih =>
    intro now pending acc
    cases hp : popMin pending with
    | none =>
      simp only [collectGo, hp]
      rw [Multiset.coe_eq_coe.mpr (List.reverse_perm acc)]
    | some pr =>
      obtain ⟨m, rest⟩ := pr
      by_cases hdue : now < m.ready_at
      · simp only [collectGo, hp, hdue, if_true]
        rw [Multiset.coe_eq_coe.mpr (List.reverse_perm acc)]
      · simp only [collectGo, hp, hdue, if_false]
        have hperm : List.Perm (pending.map PendingFrame.frame)
            (m.frame :: rest.map PendingFrame.frame) := by
          have := popMin_perm hp
          simpa using this.map PendingFrame.frame
        rw [Multiset.coe_eq_coe.mpr hperm]
        have := ih now rest (m.frame :: acc)
        rw [this]
        rw [← Multiset.cons_coe, ← Multiset.cons_coe, ← Multiset.singleton_add,
          ← Multiset.singleton_add]
        abel

theorem collect_ready_conserve (q : DelayQueue) (now : Nat) :
    queueFrames (q.collect_ready now) = queueFrames q := by
  unfold DelayQueue.collect_ready
  have hcons := collectGo_conserve q.pending.length now q.pending []
  by_cases he : (collectGo q.pending.length now q.pending []).1.isEmpty
  · simp only [he, if_true]
    unfold queueFrames
    have hnil : (collectGo q.pending.length now q.pending []).1 = [] :=
      List.isEmpty_iff.mp he
    rw [hnil] at hcons
    simp only [Multiset.coe_nil, zero_add] at hcons
    rw [hcons]
  · simp only [he, Bool.not_eq_true, Bool.false_eq_true, if_false]
    unfold queueFrames
    have hshuf : ((shuffle (collectGo q.pending.length now q.pending []).1 q.rng).1 :
        Multiset Frame) = ((collectGo q.pending.length now q.pending []).1 : Multiset Frame) :=
      Multiset.coe_eq_coe.mpr (shuffle_perm _ _)
    rw [← Multiset.coe_add, hshuf]
    simp only [Multiset.coe_nil, zero_add] at hcons
    calc ((collectGo q.pending.length now q.pending []).2.map PendingFrame.frame :
            Multiset Frame) +
          ((q.ready : Multiset Frame) +
            ((collectGo q.pending.length now q.pending []).1 : Multiset Frame))
        = ((collectGo q.pending.length now q.pending []).1 : Multiset Frame) +
            ((collectGo q.pending.length now q.pending []).2.map PendingFrame.frame :
              List Frame) + (q.ready : Multiset Frame) := by
          rw [add_comm]
          rw [add_assoc]
          rw [add_comm ((q.ready : Multiset Frame)) _]
      _ = (q.pending.map PendingFrame.frame : List Frame) + (q.ready : Multiset Frame) := by
          rw [hcons]

theorem popFrontN_append {α : Type} :
    ∀ (n : Nat) (l : List α), (popFrontN n l).1 ++ (popFrontN n l).2 = l := by
  intro n
  induction n with
  | zero => intro l; rfl
  | succ m ih =>
    intro l
    cases l with
    | nil => rfl
    | cons x xs =>
      simp only [popFrontN, List.cons_append]
      rw [ih xs]

theorem drain_ready_conserve (q : DelayQueue) (now max_frames : Nat) :
    ((q.drain_ready_at now max_frames).1 : Multiset Frame) +
      queueFrames (q.drain_ready_at now max_frames).2 = queueFrames q := by
  unfold DelayQueue.drain_ready_at
  by_cases hm : max_frames = 0
  · simp only [hm, if_true]
    simp
  · simp only [hm, if_false]
    have hsplit := popFrontN_append max_frames (q.collect_ready now).ready
    have hq1 := collect_ready_conserve q now
    unfold queueFrames at hq1 ⊢
    simp only
    calc ((popFrontN max_frames (q.collect_ready now).ready).1 : Multiset Frame) +
          (((q.collect_ready now).pending.map PendingFrame.frame : List Frame) +
            ((popFrontN max_frames (q.collect_ready now).ready).2 : Multiset Frame))
        = ((q.collect_ready now).pending.map PendingFrame.frame : List Frame) +
            (((popFrontN max_frames (q.collect_ready now).ready).1 : Multiset Frame) +
              ((popFrontN max_frames (q.collect_ready now).ready).2 : Multiset Frame)) := by
          rw [add_left_comm]
      _ = ((q.collect_ready now).pending.map PendingFrame.frame : List Frame) +
            ((q.collect_ready now).ready : Multiset Frame) := by
          rw [Multiset.coe_add, hsplit]
      _ = (q.pending.map PendingFrame.frame : List Frame) + (q.ready : Multiset Frame) :=
          hq1

theorem enqueue_at_conserve (q : DelayQueue) (now : Nat) (f : Frame) :
    queueFrames (q.enqueue_at now f) = f ::ₘ queueFrames q := by
  unfold DelayQueue.enqueue_at queueFrames
  simp only [List.map_cons]
  rw [← Multiset.cons_coe, Multiset.cons_add]

/-- C10: the delay queue conserves frames.  Over any operation sequence, the
multiset of all frames drained plus the frames still held (pending heap and
ready buffer) equals the multiset of all frames enqueued plus the initial
contents. -/
theorem delay_queue_conservation (ops : List DelayOp) :
    ∀ (q : DelayQueue),
      ((runDelay q ops).1 : Multiset Frame) + queueFrames (runDelay q ops).2 =
        opsFrames ops + queueFrames q := by
  induction ops with
  | nil =>
    intro q
    simp [runDelay, opsFrames]
  | cons op rest ih =>
    intro q
    cases op with
    | enq now f =>
      have := ih (q.enqueue_at now f)
      rw [enqueue_at_conserve q now f] at this
      calc ((runDelay q (DelayOp.enq now f :: rest)).1 : Multiset Frame) +
            queueFrames (runDelay q (DelayOp.enq now f :: rest)).2
          = ((runDelay (q.enqueue_at now f) rest).1 : Multiset Frame) +
              queueFrames (runDelay (q.enqueue_at now f) rest).2 := rfl
        _ = opsFrames rest + (f ::ₘ queueFrames q) := this
        _ = opsFrames (DelayOp.enq now f :: rest) + queueFrames q := by
            show opsFrames rest + (f ::ₘ queueFrames q) =
              (f ::ₘ opsFrames rest) + queueFrames q
            rw [Multiset.cons_add, add_comm (opsFrames rest) _, Multiset.cons_add,
              add_comm (queueFrames q) _]
    | drain now m =>
      have hd := drain_ready_conserve q now m
      have hr := ih (q.drain_ready_at now m).2
      calc ((runDelay q (DelayOp.drain now m :: rest)).1 : Multiset Frame) +
            queueFrames (runDelay q (DelayOp.drain now m :: rest)).2
          = (((q.drain_ready_at now m).1 ++
                (runDelay (q.drain_ready_at now m).2 rest).1 : List Frame) : Multiset Frame) +
              queueFrames (runDelay (q.drain_ready_at now m).2 rest).2 := rfl
        _ = ((q.drain_ready_at now m).1 : Multiset Frame) +
              (((runDelay (q.drain_ready_at now m).2 rest).1 : Multiset Frame) +
                queueFrames (runDelay (q.drain_ready_at now m).2 rest).2) := by
            rw [← Multiset.coe_add, add_assoc]
        _ = ((q.drain_ready_at now m).1 : Multiset Frame) +
              (opsFrames rest + queueFrames (q.drain_ready_at now m).2) := by
            rw [hr]
        _ = opsFrames rest + (((q.drain_ready_at now m).1 : Multiset Frame) +
              queueFrames (q.drain_ready_at now m).2) := by
            rw [add_left_comm]
        _ = opsFrames (DelayOp.drain now m :: rest) + queueFrames q := by
            rw [hd]
            rfl

/-! ## Path epoch rotation (`src/anonymity/path_epoch.rs`) -/

structure UniformEpochDuration where
  min_ns : Nat
  max_ns : Nat
deriving DecidableEq

/-- `UniformEpochDuration::sample_duration` (same shape as
`UniformDelay::sample_delay`). -/
def UniformEpochDuration.sample_duration (d : UniformEpochDuration) (g : RngState) :
    Nat × RngState :=
  let span := d.max_ns - d.min_ns
  if span = 0 then (satAdd64 d.min_ns 0, g)
  else
    let s := nextU64 g
    (satAdd64 d.min_ns (s.1 % (span + 1)), s.2)

structure PathEpoch (P : Type) where
  paths : List P
  distribution : UniformEpochDuration
  rng : RngState
  current_index : Nat
  next_rotation : Nat
  epoch_nonce : Nat

/-- `PathEpoch::is_due`: `now >= next_rotation`. -/
def PathEpoch.is_due {P : Type} (p : PathEpoch P) (now : Nat) : Bool :=
  decide (p.next_rotation ≤ now)

/-- `PathEpoch::select_next_index`: with a single path return 0; otherwise draw
`idx = next_u64 % len` and bump to `(idx + 1) % len` when it equals the current
index. -/
def PathEpoch.select_next_index {P : Type} (p : PathEpoch P) : Nat × RngState :=
  if p.paths.length = 1 then (0, p.rng)
  else
    let s := nextU64 p.rng
    let idx := s.1 % p.paths.length
    (if idx = p.current_index then (idx + 1) % p.paths.length else idx, s.2)

/-- `PathEpoch::schedule_next_rotation`: sample an epoch duration (bumping a
zero sample to 1 ns) and set `next_rotation = now + duration`. -/
def PathEpoch.schedule_next_rotation {P : Type} (p : PathEpoch P) (now : Nat) :
    PathEpoch P :=
  let s := p.distribution.sample_duration p.rng
  let dur := if s.1 = 0 then 1 else s.1
  { p with rng := s.2, next_rotation := now + dur }

/-- `PathEpoch::commit_rotation`: install the next index, draw a new epoch
nonce, and schedule the next rotation. -/
def PathEpoch.commit_rotation {P : Type} (p : PathEpoch P) (next_index : Nat)
    (now : Nat) : PathEpoch P :=
  let s := nextU64 p.rng
  PathEpoch.schedule_next_rotation
    { p with current_index := next_index, epoch_nonce := s.1, rng := s.2 } now

/-- `PathEpoch::rotate_if_due`. -/
def PathEpoch.rotate_if_due {P : Type} (p : PathEpoch P) (now : Nat) :
    Bool × PathEpoch P :=
  if p.is_due now then
    let s := p.select_next_index
    (true, PathEpoch.commit_rotation { p with rng := s.2 } s.1 now)
  else (false, p)

theorem select_next_index_spec {P : Type} (p : PathEpoch P)
    (hlen : 1 < p.paths.length) (hcur : p.current_index < p.paths.length) :
    (p.select_next_index).1 ≠ p.current_index ∧
    (p.select_next_index).1 < p.paths.length := by
  have hpick : (p.select_next_index).1 =
      (if (nextU64 p.rng).1 % p.paths.length = p.current_index
        then ((nextU64 p.rng).1 % p.paths.length + 1) % p.paths.length
        else (nextU64 p.rng).1 % p.paths.length) := by
    unfold PathEpoch.select_next_index
    rw [if_neg (by omega : ¬p.paths.length = 1)]
  rw [hpick]
  by_cases heq : (nextU64 p.rng).1 % p.paths.length = p.current_index
  · rw [if_pos heq, heq]
    constructor
    · by_cases hwrap : p.current_index + 1 = p.paths.length
      · rw [hwrap, Nat.mod_self]
        omega
      · rw [Nat.mod_eq_of_lt (by omega)]
        omega
    · exact Nat.mod_lt _ (by omega)
  · rw [if_neg heq]
    exact ⟨heq, Nat.mod_lt _ (by omega)⟩

/-- C5: when there is more than one path and a due rotation fires, the newly
selected path index differs from the previous one (and stays in range), so
consecutive path indices across due rotations are always distinct. -/
theorem path_rotation_diversity {P : Type} (p : PathEpoch P) (now : Nat)
    (hlen : 1 < p.paths.length) (hcur : p.current_index < p.paths.length)
    (hrot : (p.rotate_if_due now).1 = true) :
    (p.rotate_if_due now).2.current_index ≠ p.current_index ∧
    (p.rotate_if_due now).2.current_index < p.paths.length := by
  have hsel := select_next_index_spec p hlen hcur
  unfold PathEpoch.rotate_if_due at hrot ⊢
  by_cases hdue : p.is_due now
  · simp only [hdue, if_true]
    refine ⟨?_, ?_⟩
    · show (PathEpoch.commit_rotation _ (p.select_next_index).1 now).current_index ≠
        p.current_index
      unfold PathEpoch.commit_rotation PathEpoch.schedule_next_rotation
      exact hsel.1
    · show (PathEpoch.commit_rotation _ (p.select_next_index).1 now).current_index <
        p.paths.length
      unfold PathEpoch.commit_rotation PathEpoch.schedule_next_rotation
      exact hsel.2
  · rw [if_neg hdue] at hrot
    simp at hrot

theorem path_rotation_diversity_witness :
    (1 < ([0, 1] : List Nat).length) ∧
    (0 < ([0, 1] : List Nat).length) ∧
    (((⟨[0, 1], ⟨5, 5⟩, zeroRng, 0, 0, 0⟩ : PathEpoch Nat).rotate_if_due 3).1 = true) ∧
    ((⟨[0, 1], ⟨5, 5⟩, zeroRng, 0, 0, 0⟩ : PathEpoch Nat).rotate_if_due 3).2.current_index ≠ 0 ∧
    ((⟨[0, 1], ⟨5, 5⟩, zeroRng, 0, 0, 0⟩ : PathEpoch Nat).rotate_if_due 3).2.current_index <
      ([0, 1] : List Nat).length :=
  ⟨by decide, by decide, by decide,
   path_rotation_diversity (⟨[0, 1], ⟨5, 5⟩, zeroRng, 0, 0, 0⟩ : PathEpoch Nat) 3
     (by decide) (by decide) (by decide)⟩

/-! ## Frame codec (`src/relay_protocol.rs`)

`FrameEncoder::encode_frame` writes `payload.len() as u32` as a 4-byte
big-endian length field, then the version byte, the frame-type byte, and the
payload.  `FrameDecoder::decode_frame` reads them back in the same order; the
byte count consumed is `6 + payload_len`.  Bytes are `Nat < 256`. -/

inductive FrameType where
  | Control
  | Data
deriving DecidableEq

def FrameType.toByte : FrameType → Nat
  | .Control => 0x01
  | .Data => 0x02

/-- The frame-type byte validation in `decode_frame`. -/
def byteToFrameType (b : Nat) : Option FrameType :=
  if b = 0x01 then some FrameType.Control
  else if b = 0x02 then some FrameType.Data
  else none

def MAX_FRAME_SIZE : Nat := 1024 * 1024

/-- `u32::to_be_bytes`. -/
def be32 (n : Nat) : List Nat :=
  [n / 2 ^ 24 % 256, n / 2 ^ 16 % 256, n / 2 ^ 8 % 256, n % 256]

/-- `u32::from_be_bytes`. -/
def be32val (b0 b1 b2 b3 : Nat) : Nat :=
  b0 * 2 ^ 24 + b1 * 2 ^ 16 + b2 * 2 ^ 8 + b3

/-- `FrameEncoder::encode_frame`: rejects payloads above `MAX_FRAME_SIZE`,
otherwise emits `length(4, big-endian) ‖ version ‖ type ‖ payload` where
`length = payload.len() as u32`. -/
def FrameEncoder.encode_frame (version : Nat) (frame_type : FrameType)
    (payload : List Nat) : Except String (List Nat) :=
  let payload_len := payload.length % 2 ^ 32
  if MAX_FRAME_SIZE < payload_len then .error "Frame exceeds maximum size"
  else .ok (be32 payload_len ++ version :: frame_type.toByte :: payload)

/-- `FrameDecoder::decode_frame` on a byte stream: read the 4-byte length,
reject lengths above `MAX_FRAME_SIZE`, read version and type bytes (rejecting
unknown type bytes), then read `payload_len` payload bytes.  Returns the
decoded triple and the number of bytes consumed; any shortfall is an error
(`read_exact` failure). -/
def FrameDecoder.decode_frame (input : List Nat) :
    Except String ((Nat × FrameType × List Nat) × Nat) :=
  match input with
  | b0 :: b1 :: b2 :: b3 :: rest2 =>
    let payload_len := be32val b0 b1 b2 b3
    if MAX_FRAME_SIZE < payload_len then .error "Frame exceeds maximum size"
    else
      match rest2 with
      | version :: tb :: rest =>
        match byteToFrameType tb with
        | none => .error "Invalid frame type"
        | some ft =>
          if payload_len ≤ rest.length then
            .ok ((version, ft, rest.take payload_len), 6 + payload_len)
          else .error "Truncated frame"
      | _ => .error "Truncated header"
  | _ => .error "Truncated length"

theorem be32_roundtrip (n : Nat) (h : n < 2 ^ 32) :
    be32val (n / 2 ^ 24 % 256) (n / 2 ^ 16 % 256) (n / 2 ^ 8 % 256) (n % 256) = n := by
  unfold be32val
  omega

/-- Counterexample to C2 as stated: the length field written by `encode_frame`
is `|payload|`, not `2 + |payload|`; the example frame encodes with length
field 4 (bytes `00 00 00 04 ...`), not 6; and `decode_frame` accepts a frame
whose length field is 0 < 2 rather than rejecting it. -/
theorem frame_length_field_counterexample :
    FrameEncoder.encode_frame 2 FrameType.Data [0xDE, 0xAD, 0xBE, 0xEF] =
      .ok [0x00, 0x00, 0x00, 0x04, 0x02, 0x02, 0xDE, 0xAD, 0xBE, 0xEF] ∧
    ([0x00, 0x00, 0x00, 0x04, 0x02, 0x02, 0xDE, 0xAD, 0xBE, 0xEF] : List Nat) ≠
      [0x00, 0x00, 0x00, 0x06, 0x02, 0x02, 0xDE, 0xAD, 0xBE, 0xEF] ∧
    FrameDecoder.decode_frame [0x00, 0x00, 0x00, 0x00, 0x02, 0x02] =
      .ok ((2, FrameType.Data, []), 6) :=
  ⟨rfl, by decide, rfl⟩

/-- C2 (amended): `encode_frame` writes a 4-byte big-endian length field equal
to `|payload|` (not `2 + |payload|`), followed by version, type and payload;
`decode_frame` rejects only length fields above 1 MiB and accepts length
fields below 2; encoding `(version = 2, type = Data, payload = DE AD BE EF)`
produces exactly `00 00 00 04 02 02 DE AD BE EF`. -/
theorem frame_length_field (version : Nat) (ft : FrameType) (payload : List Nat)
    (h : payload.length ≤ MAX_FRAME_SIZE) :
    FrameEncoder.encode_frame version ft payload =
      .ok (be32 payload.length ++ version :: ft.toByte :: payload) ∧
    FrameDecoder.decode_frame [0x00, 0x00, 0x00, 0x00, 0x02, 0x02] =
      .ok ((2, FrameType.Data, []), 6) ∧
    FrameEncoder.encode_frame 2 FrameType.Data [0xDE, 0xAD, 0xBE, 0xEF] =
      .ok [0x00, 0x00, 0x00, 0x04, 0x02, 0x02, 0xDE, 0xAD, 0xBE, 0xEF] := by
  have hmod : payload.length % 2 ^ 32 = payload.length :=
    Nat.mod_eq_of_lt (by unfold MAX_FRAME_SIZE at h; omega)
  refine ⟨?_, rfl, rfl⟩
  unfold FrameEncoder.encode_frame
  simp only [hmod]
  rw [if_neg (by omega)]

theorem frame_length_field_witness :
    (([0xDE, 0xAD, 0xBE, 0xEF] : List Nat).length ≤ MAX_FRAME_SIZE) ∧
    (FrameEncoder.encode_frame 2 FrameType.Data [0xDE, 0xAD, 0xBE, 0xEF] =
      .ok (be32 ([0xDE, 0xAD, 0xBE, 0xEF] : List Nat).length ++
        2 :: FrameType.Data.toByte :: [0xDE, 0xAD, 0xBE, 0xEF]) ∧
    FrameDecoder.decode_frame [0x00, 0x00, 0x00, 0x00, 0x02, 0x02] =
      .ok ((2, FrameType.Data, []), 6) ∧
    FrameEncoder.encode_frame 2 FrameType.Data [0xDE, 0xAD, 0xBE, 0xEF] =
      .ok [0x00, 0x00, 0x00, 0x04, 0x02, 0x02, 0xDE, 0xAD, 0xBE, 0xEF]) :=
  ⟨by decide, frame_length_field 2 FrameType.Data [0xDE, 0xAD, 0xBE, 0xEF] (by decide)⟩

/-- C6: for every version byte, valid frame type and payload of length at most
1 048 574 bytes, decoding an encoded frame returns exactly the original triple
and consumes exactly `6 + |payload|` bytes. -/
theorem frame_roundtrip (version : Nat) (ft : FrameType) (payload : List Nat)
    (hv : version < 256) (hb : ∀ b ∈ payload, b < 256)
    (hp : payload.length ≤ 1048574) :
    FrameEncoder.encode_frame version ft payload =
      .ok (be32 payload.length ++ version :: ft.toByte :: payload) ∧
    FrameDecoder.decode_frame
        (be32 payload.length ++ version :: ft.toByte :: payload) =
      .ok ((version, ft, payload), 6 + payload.length) := by
  have hmod : payload.length % 2 ^ 32 = payload.length :=
    Nat.mod_eq_of_lt (by omega)
  constructor
  · unfold FrameEncoder.encode_frame
    simp only [hmod]
    rw [if_neg (by unfold MAX_FRAME_SIZE; omega)]
  · show FrameDecoder.decode_frame
        (payload.length / 2 ^ 24 % 256 :: payload.length / 2 ^ 16 % 256 ::
          payload.length / 2 ^ 8 % 256 :: payload.length % 256 ::
          version :: ft.toByte :: payload) = _
    have hval : be32val (payload.length / 16777216 % 256) (payload.length / 65536 % 256)
        (payload.length / 256 % 256) (payload.length % 256) = payload.length := by
      unfold be32val
      omega
    have hft : byteToFrameType ft.toByte = some ft := by
      cases ft <;> rfl
    have hsize : ¬MAX_FRAME_SIZE < payload.length := by
      unfold MAX_FRAME_SIZE
      omega
    simp [FrameDecoder.decode_frame, hval, hft, hsize, List.take_length]

theorem frame_roundtrip_witness :
    (2 < 256) ∧ (∀ b ∈ ([0xDE, 0xAD, 0xBE, 0xEF] : List Nat), b < 256) ∧
    (([0xDE, 0xAD, 0xBE, 0xEF] : List Nat).length ≤ 1048574) ∧
    (FrameEncoder.encode_frame 2 FrameType.Data [0xDE, 0xAD, 0xBE, 0xEF] =
      .ok (be32 ([0xDE, 0xAD, 0xBE, 0xEF] : List Nat).length ++
        2 :: FrameType.Data.toByte :: [0xDE, 0xAD, 0xBE, 0xEF]) ∧
    FrameDecoder.decode_frame
        (be32 ([0xDE, 0xAD, 0xBE, 0xEF] : List Nat).length ++
          2 :: FrameType.Data.toByte :: [0xDE, 0xAD, 0xBE, 0xEF]) =
      .ok ((2, FrameType.Data, [0xDE, 0xAD, 0xBE, 0xEF]),
        6 + ([0xDE, 0xAD, 0xBE, 0xEF] : List Nat).length)) :=
  ⟨by decide, by decide, by decide,
   frame_roundtrip 2 FrameType.Data [0xDE, 0xAD, 0xBE, 0xEF]
     (by decide) (by decide) (by decide)⟩

/-! ## Anonymity protocol engine (`src/anonymity_protocol.rs`)

`on_transport_bytes` appends incoming bytes to the engine's inbound buffer and
repeatedly decodes frames from its front.  Decoded frames whose version is not
`ANONYMITY_PROTOCOL_VERSION` or whose type is not `Data` are discarded and the
loop continues; on any decode error the loop breaks, leaving the buffer as is.
The engine's outbound mixing pool is untouched by this method, so the model
carries the inbound buffer alone. -/

structure DataFrame where
  conn_id : Nat
  payload : List Nat
deriving DecidableEq

/-- `DataFrame::decode`: a 4-byte big-endian `conn_id` followed by the data. -/
def DataFrame.decode (payload : List Nat) : Except String DataFrame :=
  match payload with
  | b0 :: b1 :: b2 :: b3 :: rest => .ok ⟨be32val b0 b1 b2 b3, rest⟩
  | _ => .error "Data payload too short"

def ANONYMITY_PROTOCOL_VERSION : Nat := 2

/-- The decode loop of `on_transport_bytes`.  A successful decode always
consumes at least 6 bytes, so `fuel = buffer length` bounds the iteration
count and the fuel never runs out before the loop's own exit conditions. -/
def otbGo : Nat → List Nat → List DataFrame → List DataFrame × List Nat
  | 0, buf, acc => (acc.reverse, buf)
  | fuel + 1, buf, acc =>
    if buf.length < 6 then (acc.reverse, buf)
    else
      match FrameDecoder.decode_frame buf with
      | .error _ => (acc.reverse, buf)
      | .ok ((version, frame_type, payload), consumed) =>
        let rest := buf.drop consumed
        if version = ANONYMITY_PROTOCOL_VERSION ∧ frame_type = FrameType.Data then
          match DataFrame.decode payload with
          | .ok df => otbGo fuel rest (df :: acc)
          | .error _ => otbGo fuel rest acc
        else otbGo fuel rest acc

/-- `AnonymityProtocolEngine::on_transport_bytes`, acting on the engine's
inbound buffer: returns the emitted data frames and the new buffer. -/
def on_transport_bytes (inbound data : List Nat) : List DataFrame × List Nat :=
  let buf := inbound ++ data
  otbGo buf.length buf []

/-- C8 (amended): when the frame at the front of the inbound buffer fails to
decode (unknown type byte, oversize length field, or truncation), the engine
does not discard it: `on_transport_bytes` returns no frames and leaves the
offending bytes in the buffer, so well-formed frames behind a malformed frame
are never delivered.  Only frames that decode successfully but carry a foreign
version or a non-Data type are discarded with decoding continuing. -/
theorem malformed_frame_stops_decoding (inbound data : List Nat)
    (h : ∀ r, FrameDecoder.decode_frame (inbound ++ data) ≠ .ok r) :
    on_transport_bytes inbound data = ([], inbound ++ data) := by
  unfold on_transport_bytes
  cases hlen : (inbound ++ data).length with
  | zero =>
    simp only [hlen]
    rfl
  | succ n =>
    simp only [hlen]
    by_cases hshort : (inbound ++ data).length < 6
    · simp only [otbGo]
      rw [if_pos hshort]
      simp
    · cases hdec : FrameDecoder.decode_frame (inbound ++ data) with
      | error e =>
        simp only [otbGo]
        rw [if_neg hshort, hdec]
        simp
      | ok r =>
        exact absurd hdec (h r)

/-- Concrete refutation of C8 as stated: `badFrame` has an unknown frame-type
byte `0xFF`. -/
def badFrame : List Nat := [0x00, 0x00, 0x00, 0x00, 0x02, 0xFF]

/-- A well-formed frame: version 2, type Data, payload = conn_id 7 with empty
data. -/
def goodFrame : List Nat := [0x00, 0x00, 0x00, 0x04, 0x02, 0x02, 0x00, 0x00, 0x00, 0x07]

/-- Refutes C8 as stated: a malformed frame (unknown type byte `0xFF`)
followed by a well-formed Data frame yields no frames; the bad bytes stay in
the buffer, and a subsequent call still delivers nothing, although the good
frame alone would decode to `DataFrame { conn_id := 7, payload := [] }`. -/
theorem malformed_frame_counterexample :
    on_transport_bytes [] (badFrame ++ goodFrame) = ([], badFrame ++ goodFrame) ∧
    on_transport_bytes (badFrame ++ goodFrame) [] = ([], badFrame ++ goodFrame) ∧
    on_transport_bytes [] goodFrame = ([⟨7, []⟩], []) := by
  refine ⟨by decide, by decide, by decide⟩

theorem malformed_frame_stops_decoding_witness :
    (∀ r, FrameDecoder.decode_frame (([] : List Nat) ++ (badFrame ++ goodFrame)) ≠ .ok r) ∧
    on_transport_bytes [] (badFrame ++ goodFrame) = ([], [] ++ (badFrame ++ goodFrame)) :=
  ⟨by intro r
      show FrameDecoder.decode_frame (badFrame ++ goodFrame) ≠ .ok r
      intro hcon
      rw [show FrameDecoder.decode_frame (badFrame ++ goodFrame) =
        .error "Invalid frame type" from rfl] at hcon
      exact Except.noConfusion hcon,
   malformed_frame_stops_decoding [] (badFrame ++ goodFrame)
     (by intro r
         show FrameDecoder.decode_frame (badFrame ++ goodFrame) ≠ .ok r
         intro hcon
         rw [show FrameDecoder.decode_frame (badFrame ++ goodFrame) =
           .error "Invalid frame type" from rfl] at hcon
         exact Except.noConfusion hcon)⟩

/-! ## Connection table flow control (`src/relay_protocol.rs`)

The `HashMap<u32, ConnectionInfo>` is modelled as an association list with
unique keys; `u32` arithmetic uses explicit wrapping (`initial_window_size * 2`)
and saturation (`saturating_add`). -/

inductive ConnectionState where
  | Init
  | Open
  | Closing
  | Closed
deriving DecidableEq

structure RelayLimits where
  max_connections : Nat
  max_inflight_opens : Nat
  max_buffered_bytes : Nat
deriving DecidableEq

structure RelayMetrics where
  connections_rejected : Nat
  opens_rejected : Nat
  buffer_limit_breached : Nat
deriving DecidableEq

structure ConnectionInfo where
  state : ConnectionState
  buffered_bytes : Nat
  send_window : Nat
  initial_window_size : Nat
deriving DecidableEq

structure ConnectionTable where
  connections : List (Nat × ConnectionInfo)
  inflight_opens : Nat
  limits : RelayLimits
  metrics : RelayMetrics
  default_window_size : Nat
deriving DecidableEq

def U32_MOD : Nat := 2 ^ 32

/-- `u32::saturating_add`. -/
def satAdd32 (a b : Nat) : Nat := min (a + b) (U32_MOD - 1)

/-- `u32` multiplication by 2 (`initial_window_size * 2`), wrapping. -/
def wrapDouble (a : Nat) : Nat := a * 2 % U32_MOD

/-- `HashMap::get`. -/
def lookupConn (l : List (Nat × ConnectionInfo)) (conn_id : Nat) :
    Option ConnectionInfo :=
  match l with
  | [] => none
  | e :: rest => if e.1 = conn_id then some e.2 else lookupConn rest conn_id

/-- `HashMap::get_mut` followed by a field update. -/
def updateConn (l : List (Nat × ConnectionInfo)) (conn_id : Nat)
    (f : ConnectionInfo → ConnectionInfo) : List (Nat × ConnectionInfo) :=
  l.map (fun e => if e.1 = conn_id then (e.1, f e.2) else e)

/-- `ConnectionTable::new`. -/
def ConnectionTable.new (limits : RelayLimits) : ConnectionTable :=
  ⟨[], 0, limits, ⟨0, 0, 0⟩, 65536⟩

/-- `ConnectionTable::open_connection`. -/
def ConnectionTable.open_connection (t : ConnectionTable) (conn_id : Nat) :
    Except String Unit × ConnectionTable :=
  if t.limits.max_connections ≤ t.connections.length then
    (.error "Max connections exceeded",
     { t with metrics :=
        { t.metrics with connections_rejected := t.metrics.connections_rejected + 1 } })
  else if t.limits.max_inflight_opens ≤ t.inflight_opens then
    (.error "Max inflight opens exceeded",
     { t with metrics :=
        { t.metrics with opens_rejected := t.metrics.opens_rejected + 1 } })
  else
    match lookupConn t.connections conn_id with
    | none =>
      (.ok (),
       { t with
          connections := t.connections ++
            [(conn_id, ⟨ConnectionState.Init, 0, t.default_window_size,
              t.default_window_size⟩)],
          inflight_opens := t.inflight_opens + 1 })
    | some _ => (.error "Connection already exists", t)

/-- `ConnectionTable::finalize_open`. -/
def ConnectionTable.finalize_open (t : ConnectionTable) (conn_id : Nat) :
    Except String Unit × ConnectionTable :=
  match lookupConn t.connections conn_id with
  | some info =>
    if info.state = ConnectionState.Init then
      let c2 := updateConn t.connections conn_id
        (fun i => { i with state := ConnectionState.Open })
      let k2 := if 0 < t.inflight_opens then t.inflight_opens - 1 else t.inflight_opens
      (.ok (), { t with connections := c2, inflight_opens := k2 })
    else (.error "Connection not in init state", t)
  | none => (.error "Connection not found", t)

/-- `ConnectionTable::consume_send_credits`. -/
def ConnectionTable.consume_send_credits (t : ConnectionTable) (conn_id : Nat)
    (data_size : Nat) : Except String Unit × ConnectionTable :=
  match lookupConn t.connections conn_id with
  | some info =>
    if data_size ≤ info.send_window then
      let c2 := updateConn t.connections conn_id
        (fun i => { i with send_window := i.send_window - data_size })
      (.ok (), { t with connections := c2 })
    else (.error "Insufficient send credits", t)
  | none => (.error "Connection not found", t)

/-- `ConnectionTable::add_send_credits`: saturating add capped at twice the
initial window size. -/
def ConnectionTable.add_send_credits (t : ConnectionTable) (conn_id : Nat)
    (credits : Nat) : Except String Unit × ConnectionTable :=
  match lookupConn t.connections conn_id with
  | some _ =>
    let c2 := updateConn t.connections conn_id
      (fun i =>
        { i with send_window := min (satAdd32 i.send_window credits) (wrapDouble i.initial_window_size) })
    (.ok (), { t with connections := c2 })
  | none => (.error "Connection not found", t)

/-- The per-connection body of `ConnectionTable::poll_control_frames`:
`calculate_window_update` returns `initial - window` when the window has
dropped below a quarter of the initial size; the window is then topped up,
capped at twice the initial size. -/
def pollEntry (e : Nat × ConnectionInfo) : Option (Nat × Nat) × (Nat × ConnectionInfo) :=
  if e.2.send_window < e.2.initial_window_size / 4 then
    let credits := e.2.initial_window_size - e.2.send_window
    let w2 := min (satAdd32 e.2.send_window credits) (wrapDouble e.2.initial_window_size)
    (some (e.1, credits), (e.1, { e.2 with send_window := w2 }))
  else (none, e)

/-- `ConnectionTable::poll_control_frames`: returns the emitted
`WindowUpdate(conn_id, credits)` pairs and the updated table. -/
def ConnectionTable.poll_control_frames (t : ConnectionTable) :
    List (Nat × Nat) × ConnectionTable :=
  let results := t.connections.map pollEntry
  (results.filterMap Prod.fst, { t with connections := results.map Prod.snd })

/-- `ConnectionTable::close_connection`. -/
def ConnectionTable.close_connection (t : ConnectionTable) (conn_id : Nat) :
    Except String Unit × ConnectionTable :=
  match lookupConn t.connections conn_id with
  | some info =>
    if info.state = ConnectionState.Open then
      let c2 := updateConn t.connections conn_id
        (fun i => { i with state := ConnectionState.Closing })
      (.ok (), { t with connections := c2 })
    else (.error "Invalid state for close", t)
  | none => (.error "Connection not found", t)

/-- `ConnectionTable::finalize_close`: remove the entry. -/
def ConnectionTable.finalize_close (t : ConnectionTable) (conn_id : Nat) :
    ConnectionTable :=
  { t with connections := t.connections.filter (fun e => ¬e.1 = conn_id) }

inductive TableOp where
  | openConn (conn_id : Nat)
  | finOpen (conn_id : Nat)
  | consume (conn_id data_size : Nat)
  | addCredits (conn_id credits : Nat)
  | poll
  | closeConn (conn_id : Nat)
  | finClose (conn_id : Nat)

/-- Apply a sequence of connection-table operations (results discarded, state
threaded). -/
def runTable (t : ConnectionTable) : List TableOp → ConnectionTable
  | [] => t
  | TableOp.openConn id :: ops => runTable (t.open_connection id).2 ops
  | TableOp.finOpen id :: ops => runTable (t.finalize_open id).2 ops
  | TableOp.consume id n :: ops => runTable (t.consume_send_credits id n).2 ops
  | TableOp.addCredits id n :: ops => runTable (t.add_send_credits id n).2 ops
  | TableOp.poll :: ops => runTable (t.poll_control_frames).2 ops
  | TableOp.closeConn id :: ops => runTable (t.close_connection id).2 ops
  | TableOp.finClose id :: ops => runTable (t.finalize_close id) ops

/-- The flow-control window invariant: every connection's send window is at
most twice its initial window size. -/
def WindowInv (t : ConnectionTable) : Prop :=
  ∀ e ∈ t.connections, e.2.send_window ≤ 2 * e.2.initial_window_size

theorem wrapDouble_le (a : Nat) : wrapDouble a ≤ 2 * a := by
  unfold wrapDouble U32_MOD
  have := Nat.mod_le (a * 2) (2 ^ 32)
  omega

theorem mem_updateConn {l : List (Nat × ConnectionInfo)} {conn_id : Nat}
    {f : ConnectionInfo → ConnectionInfo} {e : Nat × ConnectionInfo}
    (he : e ∈ updateConn l conn_id f) :
    ∃ e0, e0 ∈ l ∧ (e = e0 ∨ e = (e0.1, f e0.2)) := by
  unfold updateConn at he
  obtain ⟨e0, he0, heq⟩ := List.mem_map.mp he
  by_cases h : e0.1 = conn_id
  · rw [if_pos h] at heq
    exact ⟨e0, he0, Or.inr heq.symm⟩
  · rw [if_neg h] at heq
    exact ⟨e0, he0, Or.inl heq.symm⟩

theorem windowInv_open (t : ConnectionTable) (conn_id : Nat) (h : WindowInv t) :
    WindowInv (t.open_connection conn_id).2 := by
  unfold ConnectionTable.open_connection
  split
  · exact h
  · split
    · exact h
    · split
      · intro e he
        simp only [List.mem_append, List.mem_singleton] at he
        rcases he with he | he
        · exact h e he
        · subst he
          show t.default_window_size ≤ 2 * t.default_window_size
          omega
      · exact h

theorem windowInv_finalize_open (t : ConnectionTable) (conn_id : Nat)
    (h : WindowInv t) : WindowInv (t.finalize_open conn_id).2 := by
  unfold ConnectionTable.finalize_open
  split
  · split
    · intro e he
      simp only at he
      obtain ⟨e0, he0, heq⟩ := mem_updateConn he
      rcases heq with heq | heq
      · rw [heq]
        exact h e0 he0
      · rw [heq]
        exact h e0 he0
    · exact h
  · exact h

theorem windowInv_consume (t : ConnectionTable) (conn_id n : Nat)
    (h : WindowInv t) : WindowInv (t.consume_send_credits conn_id n).2 := by
  unfold ConnectionTable.consume_send_credits
  split
  · split
    · intro e he
      simp only at he
      obtain ⟨e0, he0, heq⟩ := mem_updateConn he
      rcases heq with heq | heq
      · rw [heq]
        exact h e0 he0
      · rw [heq]
        have := h e0 he0
        show e0.2.send_window - n ≤ 2 * e0.2.initial_window_size
        omega
    · exact h
  · exact h

theorem windowInv_add (t : ConnectionTable) (conn_id n : Nat)
    (h : WindowInv t) : WindowInv (t.add_send_credits conn_id n).2 := by
  unfold ConnectionTable.add_send_credits
  split
  · intro e he
    simp only at he
    obtain ⟨e0, he0, heq⟩ := mem_updateConn he
    rcases heq with heq | heq
    · rw [heq]
      exact h e0 he0
    · rw [heq]
      show min (satAdd32 e0.2.send_window n) (wrapDouble e0.2.initial_window_size) ≤
        2 * e0.2.initial_window_size
      have := wrapDouble_le e0.2.initial_window_size
      omega
  · exact h

theorem windowInv_poll (t : ConnectionTable) (h : WindowInv t) :
    WindowInv (t.poll_control_frames).2 := by
  unfold ConnectionTable.poll_control_frames
  intro e he
  simp only [List.map_map, List.mem_map, Function.comp_apply] at he
  obtain ⟨e0, he0, heq⟩ := he
  have hbound := h e0 he0
  unfold pollEntry at heq
  by_cases hc : e0.2.send_window < e0.2.initial_window_size / 4
  · rw [if_pos hc] at heq
    simp only at heq
    rw [← heq]
    show min (satAdd32 e0.2.send_window (e0.2.initial_window_size - e0.2.send_window))
        (wrapDouble e0.2.initial_window_size) ≤ 2 * e0.2.initial_window_size
    have := wrapDouble_le e0.2.initial_window_size
    omega
  · rw [if_neg hc] at heq
    rw [← heq]
    exact hbound

theorem windowInv_close (t : ConnectionTable) (conn_id : Nat) (h : WindowInv t) :
    WindowInv (t.close_connection conn_id).2 := by
  unfold ConnectionTable.close_connection
  split
  · split
    · intro e he
      simp only at he
      obtain ⟨e0, he0, heq⟩ := mem_updateConn he
      rcases heq with heq | heq
      · rw [heq]
        exact h e0 he0
      · rw [heq]
        exact h e0 he0
    · exact h
  · exact h

theorem windowInv_finalize_close (t : ConnectionTable) (conn_id : Nat)
    (h : WindowInv t) : WindowInv (t.finalize_close conn_id) := by
  unfold ConnectionTable.finalize_close
  intro e he
  exact h e (List.mem_of_mem_filter he)

theorem windowInv_run (ops : List TableOp) :
    ∀ (t : ConnectionTable), WindowInv t → WindowInv (runTable t ops) := by
  induction ops with
  | nil => intro t h; exact h
  | cons op rest ih =>
    intro t h
    cases op with
    | openConn id => exact ih _ (windowInv_open t id h)
    | finOpen id => exact ih _ (windowInv_finalize_open t id h)
    | consume id n => exact ih _ (windowInv_consume t id n h)
    | addCredits id n => exact ih _ (windowInv_add t id n h)
    | poll => exact ih _ (windowInv_poll t h)
    | closeConn id => exact ih _ (windowInv_close t id h)
    | finClose id => exact ih _ (windowInv_finalize_close t id h)

/-- C7: across any sequence of connection-table operations starting from a
fresh table, every connection's send window stays within
`[0, 2 * initial_window_size]` (the lower bound is intrinsic to `Nat`); and
`consume_send_credits` with a request exceeding the current window returns an
error and leaves the table unchanged. -/
theorem flow_control_window_bound :
    (∀ (limits : RelayLimits) (ops : List TableOp),
      WindowInv (runTable (ConnectionTable.new limits) ops)) ∧
    ∀ (t : ConnectionTable) (conn_id n : Nat) (info : ConnectionInfo),
      lookupConn t.connections conn_id = some info → info.send_window < n →
      t.consume_send_credits conn_id n = (.error "Insufficient send credits", t) := by
  constructor
  · intro limits ops
    refine windowInv_run ops _ ?_
    intro e he
    simp [ConnectionTable.new] at he
  · intro t conn_id n info hl hw
    unfold ConnectionTable.consume_send_credits
    rw [hl]
    simp only
    rw [if_neg (by omega)]

theorem flow_control_window_bound_witness :
    WindowInv (runTable (ConnectionTable.new ⟨4, 4, 1000⟩)
      [TableOp.openConn 1, TableOp.finOpen 1, TableOp.consume 1 100,
       TableOp.addCredits 1 200000, TableOp.poll]) ∧
    (lookupConn ((⟨[(1, ⟨ConnectionState.Open, 0, 5, 65536⟩)], 0, ⟨4, 4, 1000⟩,
        ⟨0, 0, 0⟩, 65536⟩ : ConnectionTable)).connections 1 =
      some ⟨ConnectionState.Open, 0, 5, 65536⟩) ∧
    ((⟨ConnectionState.Open, 0, 5, 65536⟩ : ConnectionInfo)).send_window < 10 ∧
    (⟨[(1, ⟨ConnectionState.Open, 0, 5, 65536⟩)], 0, ⟨4, 4, 1000⟩,
        ⟨0, 0, 0⟩, 65536⟩ : ConnectionTable).consume_send_credits 1 10 =
      (.error "Insufficient send credits",
       ⟨[(1, ⟨ConnectionState.Open, 0, 5, 65536⟩)], 0, ⟨4, 4, 1000⟩, ⟨0, 0, 0⟩, 65536⟩) :=
  ⟨flow_control_window_bound.1 ⟨4, 4, 1000⟩
      [TableOp.openConn 1, TableOp.finOpen 1, TableOp.consume 1 100,
       TableOp.addCredits 1 200000, TableOp.poll],
   rfl, by decide,
   flow_control_window_bound.2
     ⟨[(1, ⟨ConnectionState.Open, 0, 5, 65536⟩)], 0, ⟨4, 4, 1000⟩, ⟨0, 0, 0⟩, 65536⟩
     1 10 ⟨ConnectionState.Open, 0, 5, 65536⟩ rfl (by decide)⟩

/-! ## Observability byte-length buckets (`src/core/observability/mod.rs`)

The 21-slot atomic counter arrays are modelled as histograms `Nat → Nat`; a
`fetch_add` on slot `i` maps the histogram to its pointwise successor at `i`.
The `while v > 1 && idx + 1 < BYTE_BUCKETS` loop of `coarse_bucket_index` runs
at most 20 iterations (the guard `idx + 1 < 21` caps `idx` at 20), so running
it on `BYTE_BUCKETS = 21` units of fuel is exact. -/

def BYTE_BUCKETS : Nat := 21

/-- The shift loop of `coarse_bucket_index`. -/
def cbGo : Nat → Nat → Nat → Nat
  | 0, _, idx => idx
  | fuel + 1, v, idx =>
    if 1 < v ∧ idx + 1 < BYTE_BUCKETS then cbGo fuel (v / 2) (idx + 1) else idx

/-- `coarse_bucket_index`: 0 for a zero length, else the number of halvings
until the value reaches 1, capped at `BYTE_BUCKETS - 1`. -/
def coarse_bucket_index (byte_len : Nat) : Nat :=
  if byte_len = 0 then 0 else cbGo BYTE_BUCKETS byte_len 0

/-- `record_bytes_sent_coarse`: bump the bucket selected by
`coarse_bucket_index`. -/
def record_bytes_sent_coarse (h : Nat → Nat) (byte_len : Nat) : Nat → Nat :=
  fun i => if i = coarse_bucket_index byte_len then h i + 1 else h i

/-- `record_bytes_received_coarse`. -/
def record_bytes_received_coarse (h : Nat → Nat) (byte_len : Nat) : Nat → Nat :=
  fun i => if i = coarse_bucket_index byte_len then h i + 1 else h i

theorem log2_rec {v : Nat} (h : 2 ≤ v) : Nat.log2 v = Nat.log2 (v / 2) + 1 := by
  conv_lhs => rw [Nat.log2]
  rw [if_pos h]

theorem log2_small {v : Nat} (h : v ≤ 1) : Nat.log2 v = 0 := by
  rw [Nat.log2]
  rw [if_neg (by omega)]

theorem cbGo_eq :
    ∀ (fuel v idx : Nat), 1 ≤ v → idx ≤ 20 →
      min (Nat.log2 v) (20 - idx) ≤ fuel →
      cbGo fuel v idx = min (idx + Nat.log2 v) 20 := by
  intro fuel
  induction fuel with
  | zero =>
    intro v idx hv hidx hfuel
    have : Nat.log2 v = 0 ∨ idx = 20 := by omega
    rcases this with h | h
    · rw [cbGo, h]
      omega
    · rw [cbGo, h]
      omega
  | succ n ih =>
    intro v idx hv hidx hfuel
    by_cases hguard : 1 < v ∧ idx + 1 < BYTE_BUCKETS
    · rw [cbGo, if_pos hguard]
      have hlog : Nat.log2 v = Nat.log2 (v / 2) + 1 := log2_rec (by omega)
      have hrec := ih (v / 2) (idx + 1) (by omega)
        (by unfold BYTE_BUCKETS at hguard; omega)
        (by
          unfold BYTE_BUCKETS at hguard
          omega)
      rw [hrec]
      omega
    · rw [cbGo, if_neg hguard]
      unfold BYTE_BUCKETS at hguard
      have : v ≤ 1 ∨ 20 ≤ idx := by omega
      rcases this with h | h
      · have : v = 1 := by omega
        rw [this, log2_small (by omega)]
        omega
      · have hl0 : 0 ≤ Nat.log2 v := Nat.zero_le _
        omega

/-- Counterexample to C9 as stated: a byte length of 1 is counted in bucket 0
(together with length 0), not in bucket 1. -/
theorem coarse_bucket_counterexample :
    coarse_bucket_index 1 = 0 ∧
    record_bytes_sent_coarse (fun _ => 0) 1 0 = 1 ∧
    record_bytes_sent_coarse (fun _ => 0) 1 1 = 0 ∧
    record_bytes_received_coarse (fun _ => 0) 1 0 = 1 ∧
    record_bytes_received_coarse (fun _ => 0) 1 1 = 0 := by
  refine ⟨by decide, by decide, by decide, by decide, by decide⟩

/-- C9 (amended): `record_bytes_sent_coarse(n)` and
`record_bytes_received_coarse(n)` increment exactly the bucket
`coarse_bucket_index n`, which is 0 when `n ≤ 1` (lengths 0 and 1 share bucket
0) and `min(floor(log2 n), 20)` for `n ≥ 1` — bucket `i` with `1 ≤ i ≤ 19`
covers `[2^i, 2^(i+1))` and bucket 20 absorbs everything from `2^20` up.  In
particular a length of 1 is counted in bucket 0, not bucket 1. -/
theorem coarse_bucket_spec :
    (∀ (h : Nat → Nat) (n : Nat),
      record_bytes_sent_coarse h n (coarse_bucket_index n) =
        h (coarse_bucket_index n) + 1 ∧
      record_bytes_received_coarse h n (coarse_bucket_index n) =
        h (coarse_bucket_index n) + 1 ∧
      ∀ i, i ≠ coarse_bucket_index n →
        record_bytes_sent_coarse h n i = h i ∧
        record_bytes_received_coarse h n i = h i) ∧
    coarse_bucket_index 0 = 0 ∧
    ∀ n, 1 ≤ n → coarse_bucket_index n = min (Nat.log2 n) 20 := by
  refine ⟨?_, rfl, ?_⟩
  · intro h n
    refine ⟨?_, ?_, ?_⟩
    · unfold record_bytes_sent_coarse
      rw [if_pos rfl]
    · unfold record_bytes_received_coarse
      rw [if_pos rfl]
    · intro i hi
      constructor
      · unfold record_bytes_sent_coarse
        rw [if_neg hi]
      · unfold record_bytes_received_coarse
        rw [if_neg hi]
  · intro n hn
    unfold coarse_bucket_index
    rw [if_neg (by omega)]
    have := cbGo_eq BYTE_BUCKETS n 0 hn (by omega)
      (by unfold BYTE_BUCKETS; omega)
    rw [this]
    omega

theorem coarse_bucket_spec_witness :
    (record_bytes_sent_coarse (fun _ => 0) 4 (coarse_bucket_index 4) =
       (fun _ => (0 : Nat)) (coarse_bucket_index 4) + 1 ∧
     record_bytes_received_coarse (fun _ => 0) 4 (coarse_bucket_index 4) =
       (fun _ => (0 : Nat)) (coarse_bucket_index 4) + 1 ∧
     (5 ≠ coarse_bucket_index 4 ∧
       record_bytes_sent_coarse (fun _ => 0) 4 5 = (fun _ => (0 : Nat)) 5 ∧
       record_bytes_received_coarse (fun _ => 0) 4 5 = (fun _ => (0 : Nat)) 5)) ∧
    (1 ≤ 4 ∧ coarse_bucket_index 4 = min (Nat.log2 4) 20) :=
  ⟨⟨((coarse_bucket_spec.1 (fun _ => 0) 4).1),
    ((coarse_bucket_spec.1 (fun _ => 0) 4).2.1),
    by decide,
    ((coarse_bucket_spec.1 (fun _ => 0) 4).2.2 5 (by decide)).1,
    ((coarse_bucket_spec.1 (fun _ => 0) 4).2.2 5 (by decide)).2⟩,
   by decide,
   coarse_bucket_spec.2.2 4 (by decide)⟩

end EBT
